import Mathlib

/-!
Verification of the N-queens solver in `n_queens.py`.

A board placement is the Python tuple `(c0, c1, ...)` (index = column,
value = row), embedded as `List Int` since Python integers are unbounded.
Python sets of rows become `Finset Int`; sets of placements become
`Finset (List Int)`.  The `assert` statement in the two recursive solvers
is modelled with `Except String`: an `Except.error` value is an
`AssertionError` escaping the call.
-/

/-- The Python list `list(range(n))` of row indices, as integers. -/
def rangeList (n : Nat) : List Int :=
  (List.range n).map (fun i : Nat => (i : Int))

/-- The Python set `set(range(board_size))`: the rows `{0, ..., n-1}`. -/
def intRange (n : Nat) : Finset Int :=
  (Finset.range n).image (fun i : Nat => (i : Int))

/-- The `invalid_moves` set built by the loop of `get_valid_moves`:
for each already placed queen at column `idx` with row `move`
(the Python `for idx, move in enumerate(prev_moves)` loop, here driven by
the index range), the rows `move`, `move + diagonal_shift` and
`move - diagonal_shift` are inserted, with
`diagonal_shift = len(prev_moves) - idx`. -/
def invalid_moves (prev_moves : List Int) : Finset Int :=
  (List.range prev_moves.length).foldl
    (fun invalid idx =>
      let move := prev_moves.getD idx 0
      let diagonal_shift : Int := (prev_moves.length : Int) - (idx : Int)
      insert (move - diagonal_shift) (insert (move + diagonal_shift) (insert move invalid)))
    ∅

/-- `get_valid_moves(prev_moves, board_size)`: all rows of the board minus
the invalid ones (`valid_moves.difference_update(invalid_moves)`). -/
def get_valid_moves (prev_moves : List Int) (board_size : Nat) : Finset Int :=
  intRange board_size \ invalid_moves prev_moves

/-- The inner loop of `brute_force`: scan the elements after position
`idx_1`, whose distance to `idx_1` is `gap` (starting at 1), incrementing
the counter for each pair examined; stop (`True`) at the first pair with
`abs(elem - permut[idx_2]) == idx_2 - idx_1`. -/
def scanInner (elem : Int) (rest : List Int) (gap : Nat) (counter : Nat) : Bool × Nat :=
  match rest with
  | [] => (false, counter)
  | x :: rest' =>
    if (elem - x).natAbs = gap then (true, counter + 1)
    else scanInner elem rest' (gap + 1) (counter + 1)

/-- The outer loop of `brute_force`: `for idx_1, elem in enumerate(permut[:-1])`
(scanning the final element has an empty inner loop, so iterating over the
whole list is the same), breaking as soon as the inner loop reports a hit. -/
def scanOuter (permut : List Int) (counter : Nat) : Bool × Nat :=
  match permut with
  | [] => (false, counter)
  | elem :: rest =>
    let r := scanInner elem rest 1 counter
    if r.1 then (true, r.2)
    else scanOuter rest r.2

/-- The ascending enumeration of a finite set, used to model iteration over
a Python set of integers (CPython enumerates a set of small non-negative
integers in ascending order).  `List.insertionSort` is structurally
recursive, so this function evaluates inside the kernel. -/
def sortedList {α : Type} [LinearOrder α] (s : Finset α) : List α :=
  Quotient.lift (fun l : List α => List.insertionSort (· ≤ ·) l)
    (fun l₁ l₂ h =>
      List.eq_of_perm_of_sorted
        (((List.perm_insertionSort _ l₁).trans h).trans (List.perm_insertionSort _ l₂).symm)
        (List.sorted_insertionSort _ l₁) (List.sorted_insertionSort _ l₂))
    s.val

/-- `brute_force(n)`: all permutations of `range(n)`, keeping those with no
two queens on a diagonal, together with the pair-comparison counter.
`itertools.permutations` yields each of the `n!` permutations exactly once;
the enumeration order does not affect the returned set or the counter, so
the structurally recursive `List.permutations'` is used to generate them. -/
def brute_force (n : Nat) : Finset (List Int) × Nat :=
  ((rangeList n).permutations').foldl
    (fun acc permut =>
      let r := scanOuter permut acc.2
      (if r.1 = false then insert permut acc.1 else acc.1, r.2))
    (∅, 0)

/-- Recursion core of `recursive(prev_moves, board_size)`.  The Python
function recurses on `next_state = curr_state + [move]`; it terminates
because every appended move is a row not yet used, so the number of rows
of the board missing from the state strictly decreases.  `fuel` is that
number, `(intRange board_size \ prev_moves.toFinset).card`, supplied by
the wrapper `recursive` below; the fuel-exhausted branch is unreachable,
because `fuel = 0` forces `get_valid_moves` to be empty; the theorem
`recursive_unfold` below shows the wrapper satisfies exactly the recursion
of the source. -/
def recursiveAux (board_size : Nat) (fuel : Nat) (prev_moves : List Int) :
    Except String (Finset (List Int)) :=
  if (get_valid_moves prev_moves board_size).card = 0 then
    Except.ok ∅
  else if prev_moves.length = board_size - 1 then
    if (get_valid_moves prev_moves board_size).card = 1 then
      Except.ok {prev_moves ++ sortedList (get_valid_moves prev_moves board_size)}
    else
      Except.error "There is more than one valid solution for the final row."
  else
    match fuel with
    | 0 => Except.ok ∅
    | fuel' + 1 =>
      (sortedList (get_valid_moves prev_moves board_size)).foldlM
        (fun output move => do
          let solutions ← recursiveAux board_size fuel' (prev_moves ++ [move])
          pure (output ∪ solutions.filter (fun sol => 0 < sol.length)))
        ∅

/-- `recursive(prev_moves, board_size)`: the set of all solutions reachable
from the given state, or an `AssertionError` if the final-row assert fires.
The moves of a Python set of small non-negative integers are iterated in
ascending order, hence the sorted iteration; the result set and the
presence of an error do not depend on that order. -/
def recursive (prev_moves : List Int) (board_size : Nat) :
    Except String (Finset (List Int)) :=
  recursiveAux board_size ((intRange board_size \ prev_moves.toFinset).card) prev_moves

/-- Recursion core of `recursive_fast`, with the same exact-fuel scheme as
`recursiveAux`. -/
def recursiveFastAux (board_size : Nat) (fuel : Nat) (prev_moves : List Int) :
    Except String (Option (List Int)) :=
  if (get_valid_moves prev_moves board_size).card = 0 then
    Except.ok none
  else if prev_moves.length = board_size - 1 then
    if (get_valid_moves prev_moves board_size).card = 1 then
      Except.ok (some (prev_moves ++ sortedList (get_valid_moves prev_moves board_size)))
    else
      Except.error "There is more than one valid solution for the final row."
  else
    match fuel with
    | 0 => Except.ok none
    | fuel' + 1 =>
      (sortedList (get_valid_moves prev_moves board_size)).foldlM
        (fun solution move =>
          match solution with
          | some s => pure (some s)
          | none => recursiveFastAux board_size fuel' (prev_moves ++ [move]))
        none

/-- `recursive_fast(prev_moves, board_size)`: the first solution found in a
depth-first search trying the candidate rows in ascending order, `none` if
the subtree holds no solution, or an `AssertionError`. -/
def recursive_fast (prev_moves : List Int) (board_size : Nat) :
    Except String (Option (List Int)) :=
  recursiveFastAux board_size ((intRange board_size \ prev_moves.toFinset).card) prev_moves

/-- `test_get_valid_moves(board_size)`: for every brute-force solution and
every prefix of it, check that the next move of the solution is accepted by
the oracle.  On a violation the source executes `failed.add(solution, move)`;
`set.add` takes a single argument, so that call raises a `TypeError`,
modelled here as an `Except.error`.  Otherwise `failed` stays empty and the
pass summary is reported. -/
def test_get_valid_moves (board_size : Nat) : Except String String := do
  let brute_force_solutions := (brute_force board_size).1
  -- iterate the set of solutions (whether an error escapes, and the final
  -- summary, do not depend on the iteration order)
  let failed ← (sortedList brute_force_solutions).foldlM
    (fun (failed : Finset (List Int × Int)) solution =>
      (List.range solution.length).foldlM
        (fun (failed : Finset (List Int × Int)) row =>
          let move := solution.getD row 0
          let valid_moves := get_valid_moves (solution.take row) board_size
          if move ∉ valid_moves then
            Except.error "TypeError: add() takes exactly one argument (2 given)"
          else Except.ok failed)
        failed)
    (∅ : Finset (List Int × Int))
  if 0 < failed.card then Except.ok "<<< FAILED >>>" else Except.ok "<<< Test passed! >>>"

/-- Diagonal safety of a placement: no two columns `i < j` hold queens with
`abs(row_i - row_j) == j - i`. -/
def diagSafe (s : List Int) : Prop :=
  ∀ i : Nat, i < s.length → ∀ j : Nat, j < s.length → i < j →
    (s.getD i 0 - s.getD j 0).natAbs ≠ j - i

instance diagSafe.decidable (s : List Int) : Decidable (diagSafe s) := by
  unfold diagSafe; infer_instance

/-- A full solution for board size `n`: a permutation of the rows
`0, ..., n-1` (one queen per column and per row) that is diagonally safe. -/
def isSolution (n : Nat) (s : List Int) : Prop :=
  s.Perm (rangeList n) ∧ diagSafe s

instance isSolution.decidable (n : Nat) (s : List Int) : Decidable (isSolution n s) := by
  unfold isSolution; infer_instance

/-- The ground-truth solution set, written independently of any solver. -/
def allSolutions (n : Nat) : Finset (List Int) :=
  ((rangeList n).permutations'.filter (fun s => decide (isSolution n s))).toFinset

/-- A consistent search state: pairwise distinct rows, all on the board,
and diagonally safe. -/
def SafeState (board_size : Nat) (p : List Int) : Prop :=
  p.Nodup ∧ (∀ m ∈ p, m ∈ intRange board_size) ∧ diagSafe p

/-- The states on which `recursive` / `recursive_fast` is invoked during an
execution started from the empty state: the empty state itself, and any
non-final state with valid moves extended by one of them. -/
inductive Reachable (board_size : Nat) : List Int → Prop
  | init : Reachable board_size []
  | step {p : List Int} {m : Int} :
      Reachable board_size p →
      p.length ≠ board_size - 1 →
      m ∈ get_valid_moves p board_size →
      Reachable board_size (p ++ [m])

/-- The pair `(i, j)` conflicts diagonally in `s` (for `i < j`). -/
def isDiagConflict (s : List Int) (p : Nat × Nat) : Bool :=
  decide ((s.getD p.1 0 - s.getD p.2 0).natAbs = p.2 - p.1)

/-- The pairs `(i, j)`, `i < j`, in the order `brute_force` examines them:
`i` ascending and, for each `i`, `j` ascending. -/
def scanOrderPairs (n : Nat) : List (Nat × Nat) :=
  (List.range n).flatMap (fun i => ((List.range n).filter (fun j => i < j)).map (fun j => (i, j)))

/-- Index of the first list element satisfying `q`, if any. -/
def firstIdx {α : Type} (q : α → Bool) : List α → Option Nat
  | [] => none
  | a :: l => if q a then some 0 else (firstIdx q l).map (· + 1)

/-- Number of pairs the `brute_force` scan examines on one permutation:
all pairs up to and including the first diagonal conflict in scan order,
or every pair when the permutation is a solution. -/
def pairsExamined (s : List Int) : Nat :=
  match firstIdx (isDiagConflict s) (scanOrderPairs s.length) with
  | some k => k + 1
  | none => (scanOrderPairs s.length).length

-- Helper views of the two scan loops, used to analyse the counter.

/-- First hit of the inner scan: position (relative to the start of the
scan) of the first element of `rest` at distance `gap + position` from
`elem` whose row difference equals that distance. -/
def innerFirst (elem : Int) (rest : List Int) (gap : Nat) : Option Nat :=
  match rest with
  | [] => none
  | x :: rest' =>
    if (elem - x).natAbs = gap then some 0
    else (innerFirst elem rest' (gap + 1)).map (· + 1)

/-- Pairs examined by one run of the inner scan. -/
def innerCost (elem : Int) (rest : List Int) (gap : Nat) : Nat :=
  match innerFirst elem rest gap with
  | some k => k + 1
  | none => rest.length

/-- Whether the whole scan of one permutation reports a conflict. -/
def outerHit (s : List Int) : Bool :=
  match s with
  | [] => false
  | elem :: rest => (innerFirst elem rest 1).isSome || outerHit rest

/-- Pairs examined by the whole scan of one permutation. -/
def outerCost (s : List Int) : Nat :=
  match s with
  | [] => 0
  | elem :: rest =>
    if (innerFirst elem rest 1).isSome then innerCost elem rest 1
    else innerCost elem rest 1 + outerCost rest

/-! ### Basic facts about the board, the oracle and the sorted enumeration -/

theorem mem_intRange {n : Nat} {m : Int} : m ∈ intRange n ↔ 0 ≤ m ∧ m < (n : Int) := by
  unfold intRange
  simp only [Finset.mem_image, Finset.mem_range]
  constructor
  · rintro ⟨i, hi, rfl⟩
    exact ⟨Int.ofNat_nonneg i, by exact_mod_cast hi⟩
  · rintro ⟨h0, hn⟩
    exact ⟨m.toNat, by omega, by omega⟩

theorem card_intRange (n : Nat) : (intRange n).card = n := by
  unfold intRange
  rw [Finset.card_image_of_injective _ (fun a b h => by exact_mod_cast h)]
  exact Finset.card_range n

theorem mem_foldl_insert3 {α β : Type} [DecidableEq α] (f g h : β → α) :
    ∀ (l : List β) (acc : Finset α) (x : α),
      x ∈ l.foldl (fun s a => insert (f a) (insert (g a) (insert (h a) s))) acc ↔
        x ∈ acc ∨ ∃ a ∈ l, x = f a ∨ x = g a ∨ x = h a := by
  intro l
  induction l with
  | nil => simp
  | cons b t ih =>
    intro acc x
    rw [List.foldl_cons, ih]
    simp only [Finset.mem_insert, List.mem_cons]
    constructor
    · rintro ((hf | hg | hh | hacc) | ⟨a, ha, hx⟩)
      · exact Or.inr ⟨b, Or.inl rfl, Or.inl hf⟩
      · exact Or.inr ⟨b, Or.inl rfl, Or.inr (Or.inl hg)⟩
      · exact Or.inr ⟨b, Or.inl rfl, Or.inr (Or.inr hh)⟩
      · exact Or.inl hacc
      · exact Or.inr ⟨a, Or.inr ha, hx⟩
    · rintro (hacc | ⟨a, (rfl | ha), hx⟩)
      · exact Or.inl (Or.inr (Or.inr (Or.inr hacc)))
      · rcases hx with hf | hg | hh
        · exact Or.inl (Or.inl hf)
        · exact Or.inl (Or.inr (Or.inl hg))
        · exact Or.inl (Or.inr (Or.inr (Or.inl hh)))
      · exact Or.inr ⟨a, ha, hx⟩

theorem mem_invalid_moves {p : List Int} {m : Int} :
    m ∈ invalid_moves p ↔ ∃ idx : Nat, idx < p.length ∧
      (m = p.getD idx 0 ∨ m = p.getD idx 0 + ((p.length : Int) - (idx : Int)) ∨
       m = p.getD idx 0 - ((p.length : Int) - (idx : Int))) := by
  have h := mem_foldl_insert3 (β := Nat)
    (fun idx => p.getD idx 0 - ((p.length : Int) - (idx : Int)))
    (fun idx => p.getD idx 0 + ((p.length : Int) - (idx : Int)))
    (fun idx => p.getD idx 0)
    (List.range p.length) ∅ m
  refine Iff.trans (Iff.trans (show _ ↔ _ from Iff.rfl) h) ?_
  simp only [Finset.not_mem_empty, false_or, List.mem_range]
  constructor
  · rintro ⟨a, ha, hx | hx | hx⟩
    · exact ⟨a, ha, Or.inr (Or.inr hx)⟩
    · exact ⟨a, ha, Or.inr (Or.inl hx)⟩
    · exact ⟨a, ha, Or.inl hx⟩
  · rintro ⟨a, ha, hx | hx | hx⟩
    · exact ⟨a, ha, Or.inr (Or.inr hx)⟩
    · exact ⟨a, ha, Or.inr (Or.inl hx)⟩
    · exact ⟨a, ha, Or.inl hx⟩

theorem mem_get_valid_moves {p : List Int} {n : Nat} {m : Int} :
    m ∈ get_valid_moves p n ↔
      (0 ≤ m ∧ m < (n : Int)) ∧
      ∀ idx : Nat, idx < p.length →
        m ≠ p.getD idx 0 ∧ m ≠ p.getD idx 0 + ((p.length : Int) - (idx : Int)) ∧
        m ≠ p.getD idx 0 - ((p.length : Int) - (idx : Int)) := by
  rw [get_valid_moves, Finset.mem_sdiff, mem_intRange, mem_invalid_moves]
  simp only [not_exists, not_and, not_or]

theorem val_sortedList {α : Type} [LinearOrder α] (s : Finset α) :
    ((sortedList s : List α) : Multiset α) = s.val := by
  rcases s with ⟨m, nd⟩
  induction m using Quotient.inductionOn with
  | h l => exact Quot.sound (List.perm_insertionSort _ l)

theorem mem_sortedList {α : Type} [LinearOrder α] {s : Finset α} {a : α} :
    a ∈ sortedList s ↔ a ∈ s := by
  rw [← Multiset.mem_coe, val_sortedList]
  exact Iff.rfl

theorem length_sortedList {α : Type} [LinearOrder α] (s : Finset α) :
    (sortedList s).length = s.card := by
  have := congrArg Multiset.card (val_sortedList s)
  simpa using this

theorem nodup_sortedList {α : Type} [LinearOrder α] (s : Finset α) :
    (sortedList s).Nodup := by
  have := s.nodup
  rw [← val_sortedList s] at this
  exact this

theorem sorted_sortedList {α : Type} [LinearOrder α] (s : Finset α) :
    (sortedList s).Sorted (· ≤ ·) := by
  rcases s with ⟨m, nd⟩
  induction m using Quotient.inductionOn with
  | h l => exact List.sorted_insertionSort _ l

theorem sorted_lt_sortedList {α : Type} [LinearOrder α] (s : Finset α) :
    (sortedList s).Sorted (· < ·) :=
  (sorted_sortedList s).lt_of_le (nodup_sortedList s)

theorem sortedList_singleton {α : Type} [LinearOrder α] (a : α) :
    sortedList ({a} : Finset α) = [a] := rfl

/-! ### Solutions and consistent search states -/

theorem getD_mem_of_lt {l : List Int} {i : Nat} (h : i < l.length) : l.getD i 0 ∈ l := by
  rw [List.getD_eq_getElem _ _ h]
  exact List.getElem_mem h

theorem exists_getD_of_mem {l : List Int} {m : Int} (h : m ∈ l) :
    ∃ i : Nat, i < l.length ∧ l.getD i 0 = m := by
  obtain ⟨i, hi, rfl⟩ := List.mem_iff_getElem.mp h
  exact ⟨i, hi, List.getD_eq_getElem _ _ hi⟩

theorem nodup_getD_ne {l : List Int} (hnd : l.Nodup) {i j : Nat}
    (hi : i < l.length) (hj : j < l.length) (hij : i ≠ j) : l.getD i 0 ≠ l.getD j 0 := by
  rw [List.getD_eq_getElem _ _ hi, List.getD_eq_getElem _ _ hj]
  intro h
  exact hij (hnd.getElem_inj_iff.mp h)

theorem valid_not_mem {p : List Int} {n : Nat} {m : Int}
    (h : m ∈ get_valid_moves p n) : m ∉ p := by
  intro hm
  obtain ⟨i, hi, hgi⟩ := exists_getD_of_mem hm
  exact ((mem_get_valid_moves.mp h).2 i hi).1 hgi.symm

theorem valid_mem_intRange {p : List Int} {n : Nat} {m : Int}
    (h : m ∈ get_valid_moves p n) : m ∈ intRange n :=
  (Finset.mem_sdiff.mp h).1

theorem safeState_append {n : Nat} {p : List Int} {m : Int}
    (hs : SafeState n p) (hm : m ∈ get_valid_moves p n) : SafeState n (p ++ [m]) := by
  obtain ⟨hnd, hrange, hdiag⟩ := hs
  have hchar := mem_get_valid_moves.mp hm
  refine ⟨?_, ?_, ?_⟩
  · rw [List.nodup_append]
    refine ⟨hnd, List.nodup_singleton m, fun a ha hb => ?_⟩
    rw [List.mem_singleton] at hb
    subst hb
    exact valid_not_mem hm ha
  · intro x hx
    rcases List.mem_append.mp hx with h1 | h2
    · exact hrange x h1
    · rw [List.mem_singleton] at h2
      subst h2
      exact valid_mem_intRange hm
  · intro i hi j hj hij
    have hlen : (p ++ [m]).length = p.length + 1 := by simp
    rw [hlen] at hi hj
    by_cases hjp : j < p.length
    · rw [List.getD_append _ _ _ _ (lt_trans hij hjp), List.getD_append _ _ _ _ hjp]
      exact hdiag i (lt_trans hij hjp) j hjp hij
    · have hje : j = p.length := by omega
      subst hje
      have hip : i < p.length := hij
      rw [List.getD_append _ _ _ _ hip, List.getD_append_right _ _ _ _ (le_refl _)]
      simp only [Nat.sub_self, List.getD_cons_zero]
      have h2 := (hchar.2 i hip).2.1
      have h3 := (hchar.2 i hip).2.2
      omega

theorem card_get_valid_moves_le_one {n : Nat} {p : List Int}
    (hnd : p.Nodup) (hrange : ∀ m ∈ p, m ∈ intRange n) (hlen : p.length = n - 1)
    (hn : 1 ≤ n) : (get_valid_moves p n).card ≤ 1 := by
  have hsub : get_valid_moves p n ⊆ intRange n \ p.toFinset := by
    intro m hm
    rw [Finset.mem_sdiff]
    exact ⟨valid_mem_intRange hm, fun hmem => valid_not_mem hm (List.mem_toFinset.mp hmem)⟩
  have htf : p.toFinset ⊆ intRange n := by
    intro m hm
    exact hrange m (List.mem_toFinset.mp hm)
  have hcard : (intRange n \ p.toFinset).card = 1 := by
    rw [Finset.card_sdiff htf, card_intRange, List.toFinset_card_of_nodup hnd, hlen]
    omega
  calc (get_valid_moves p n).card ≤ (intRange n \ p.toFinset).card := Finset.card_le_card hsub
    _ = 1 := hcard

theorem rangeList_nodup (n : Nat) : (rangeList n).Nodup :=
  (List.nodup_range n).map (fun a b h => by exact_mod_cast h)

theorem mem_rangeList {n : Nat} {m : Int} : m ∈ rangeList n ↔ 0 ≤ m ∧ m < (n : Int) := by
  unfold rangeList
  simp only [List.mem_map, List.mem_range]
  constructor
  · rintro ⟨i, hi, rfl⟩
    exact ⟨Int.ofNat_nonneg i, by exact_mod_cast hi⟩
  · rintro ⟨h0, hn⟩
    exact ⟨m.toNat, by omega, by omega⟩

theorem toFinset_rangeList (n : Nat) : (rangeList n).toFinset = intRange n := by
  ext m
  rw [List.mem_toFinset, mem_rangeList, mem_intRange]

theorem isSolution_length {n : Nat} {s : List Int} (h : isSolution n s) : s.length = n := by
  have := h.1.length_eq
  simpa [rangeList] using this

theorem isSolution_nodup {n : Nat} {s : List Int} (h : isSolution n s) : s.Nodup :=
  h.1.nodup_iff.mpr (rangeList_nodup n)

theorem isSolution_mem_intRange {n : Nat} {s : List Int} (h : isSolution n s) :
    ∀ m ∈ s, m ∈ intRange n := by
  intro m hm
  rw [← toFinset_rangeList, List.mem_toFinset]
  exact h.1.mem_iff.mp hm

theorem isSolution_safeState {n : Nat} {s : List Int} (h : isSolution n s) :
    SafeState n s :=
  ⟨isSolution_nodup h, isSolution_mem_intRange h, h.2⟩

theorem safeState_isSolution {n : Nat} {p : List Int}
    (hs : SafeState n p) (hlen : p.length = n) : isSolution n p := by
  obtain ⟨hnd, hrange, hdiag⟩ := hs
  refine ⟨?_, hdiag⟩
  apply List.perm_of_nodup_nodup_toFinset_eq hnd (rangeList_nodup n)
  rw [toFinset_rangeList]
  apply Finset.eq_of_subset_of_card_le
  · intro m hm
    exact hrange m (List.mem_toFinset.mp hm)
  · rw [card_intRange, List.toFinset_card_of_nodup hnd, hlen]

theorem getD_take {s : List Int} {r idx : Nat} (h : idx < r) :
    (s.take r).getD idx 0 = s.getD idx 0 := by
  by_cases hid : idx < s.length
  · have h1 : idx < (s.take r).length := by simp; omega
    rw [List.getD_eq_getElem _ _ h1, List.getD_eq_getElem _ _ hid]
    exact List.getElem_take ..
  · have h1 : ¬ idx < (s.take r).length := by simp; omega
    rw [List.getD_eq_default _ _ (by omega), List.getD_eq_default _ _ (by omega)]

theorem solution_getD_mem_valid {n : Nat} {s : List Int} (hs : isSolution n s)
    {r : Nat} (hr : r < n) : s.getD r 0 ∈ get_valid_moves (s.take r) n := by
  have hlen : s.length = n := isSolution_length hs
  have hnd := isSolution_nodup hs
  have htlen : (s.take r).length = r := by simp; omega
  rw [mem_get_valid_moves, htlen]
  constructor
  · exact mem_intRange.mp (isSolution_mem_intRange hs _ (getD_mem_of_lt (by omega)))
  · intro idx hidx
    rw [getD_take hidx]
    have hne := nodup_getD_ne hnd (by omega : idx < s.length) (by omega : r < s.length)
      (by omega : idx ≠ r)
    have hdiag := hs.2 idx (by omega) r (by omega) hidx
    refine ⟨fun h => hne h.symm, ?_, ?_⟩ <;> omega

theorem reachable_safeState {n : Nat} {p : List Int} (h : Reachable n p) :
    SafeState n p := by
  induction h with
  | init =>
    refine ⟨List.nodup_nil, by simp, ?_⟩
    intro i hi
    exact absurd hi (by simp)
  | step hp hne hm ih => exact safeState_append ih hm

/-! ### Characterisation of the brute-force scan -/

theorem scanInner_eq (elem : Int) :
    ∀ (rest : List Int) (gap counter : Nat),
      scanInner elem rest gap counter =
        ((innerFirst elem rest gap).isSome, counter + innerCost elem rest gap) := by
  intro rest
  induction rest with
  | nil =>
    intro gap counter
    simp [scanInner, innerFirst, innerCost]
  | cons x rest' ih =>
    intro gap counter
    by_cases h : (elem - x).natAbs = gap
    · simp [scanInner, innerFirst, innerCost, h]
    · rw [show scanInner elem (x :: rest') gap counter
            = scanInner elem rest' (gap + 1) (counter + 1) from by simp [scanInner, h]]
      rw [ih]
      cases hif : innerFirst elem rest' (gap + 1) with
      | none =>
        simp only [innerFirst, innerCost, h, if_false, hif, Option.map_none',
          Option.isSome_none, List.length_cons, Prod.mk.injEq]
        exact ⟨trivial, by omega⟩
      | some k =>
        simp only [innerFirst, innerCost, h, if_false, hif, Option.map_some',
          Option.isSome_some, Prod.mk.injEq]
        exact ⟨trivial, by omega⟩

theorem scanOuter_eq :
    ∀ (s : List Int) (counter : Nat),
      scanOuter s counter = (outerHit s, counter + outerCost s) := by
  intro s
  induction s with
  | nil => intro c; simp [scanOuter, outerHit, outerCost]
  | cons elem rest ih =>
    intro c
    rw [scanOuter, scanInner_eq]
    by_cases h : (innerFirst elem rest 1).isSome
    · simp [h, outerHit, outerCost]
    · simp only [h, outerHit, outerCost, if_false, Bool.false_or, ih]
      simp only [Bool.not_eq_true] at h
      simp [h]
      omega

theorem innerFirst_eq_none_iff (elem : Int) :
    ∀ (rest : List Int) (gap : Nat),
      innerFirst elem rest gap = none ↔
        ∀ g : Nat, g < rest.length → (elem - rest.getD g 0).natAbs ≠ gap + g := by
  intro rest
  induction rest with
  | nil => intro gap; simp [innerFirst]
  | cons x rest' ih =>
    intro gap
    by_cases h : (elem - x).natAbs = gap
    · simp only [innerFirst, h, if_true, List.length_cons]
      constructor
      · intro hfalse; exact absurd hfalse (by simp)
      · intro hall
        have := hall 0 (by omega)
        rw [List.getD_cons_zero] at this
        omega
    · simp only [innerFirst, h, if_false, Option.map_eq_none', ih]
      constructor
      · intro hall g hg
        cases g with
        | zero =>
          rw [List.getD_cons_zero]
          omega
        | succ g' =>
          have := hall g' (by simp at hg; omega)
          rw [List.getD_cons_succ]
          omega
      · intro hall g hg
        have := hall (g + 1) (by simp; omega)
        rw [List.getD_cons_succ] at this
        omega

theorem diagSafe_nil : diagSafe [] := by
  intro i hi
  exact absurd hi (by simp)

theorem diagSafe_cons {x : Int} {l : List Int} :
    diagSafe (x :: l) ↔
      (∀ g : Nat, g < l.length → (x - l.getD g 0).natAbs ≠ 1 + g) ∧ diagSafe l := by
  constructor
  · intro h
    refine ⟨fun g hg => ?_, fun i hi j hj hij => ?_⟩
    · have := h 0 (by simp) (g + 1) (by simp; omega) (by omega)
      rw [List.getD_cons_zero, List.getD_cons_succ] at this
      omega
    · have := h (i + 1) (by simp; omega) (j + 1) (by simp; omega) (by omega)
      rw [List.getD_cons_succ, List.getD_cons_succ] at this
      have he : j + 1 - (i + 1) = j - i := by omega
      rw [he] at this
      exact this
  · rintro ⟨hhead, htail⟩ i hi j hj hij
    cases i with
    | zero =>
      cases j with
      | zero => omega
      | succ g =>
        have := hhead g (by simp at hj; omega)
        rw [List.getD_cons_zero, List.getD_cons_succ]
        omega
    | succ i' =>
      cases j with
      | zero => omega
      | succ j' =>
        have := htail i' (by simp at hi; omega) j' (by simp at hj; omega) (by omega)
        rw [List.getD_cons_succ, List.getD_cons_succ]
        have he : j' + 1 - (i' + 1) = j' - i' := by omega
        rw [he]
        exact this

theorem outerHit_false_iff : ∀ s : List Int, outerHit s = false ↔ diagSafe s := by
  intro s
  induction s with
  | nil =>
    simp only [outerHit]
    exact ⟨fun _ => diagSafe_nil, fun _ => by simp⟩
  | cons elem rest ih =>
    rw [outerHit, Bool.or_eq_false_iff, diagSafe_cons, ← ih]
    have : (innerFirst elem rest 1).isSome = false ↔ innerFirst elem rest 1 = none := by
      cases innerFirst elem rest 1 <;> simp
    rw [this, innerFirst_eq_none_iff]

theorem brute_force_fold :
    ∀ (l : List (List Int)) (S : Finset (List Int)) (c : Nat),
      l.foldl (fun acc permut =>
          let r := scanOuter permut acc.2
          (if r.1 = false then insert permut acc.1 else acc.1, r.2)) (S, c)
        = (S ∪ (l.filter (fun s => !outerHit s)).toFinset,
           c + (l.map (fun s => outerCost s)).sum) := by
  intro l
  induction l with
  | nil =>
    intro S c
    simp
  | cons p l ih =>
    intro S c
    rw [List.foldl_cons]
    show (l.foldl _ (if (scanOuter p c).1 = false then insert p S else S, (scanOuter p c).2)) = _
    rw [scanOuter_eq]
    cases houter : outerHit p with
    | false =>
      simp only [houter, eq_self_iff_true, if_true, ih, List.filter_cons, Bool.not_false,
        List.toFinset_cons, List.map_cons, List.sum_cons, Prod.mk.injEq]
      refine ⟨?_, by omega⟩
      rw [Finset.union_insert, Finset.insert_union]
    | true =>
      simp only [houter, Bool.true_eq_false, if_false, ih, List.filter_cons, Bool.not_true,
        List.map_cons, List.sum_cons, Prod.mk.injEq]
      exact ⟨rfl, by omega⟩

theorem brute_force_eq (n : Nat) :
    brute_force n =
      (((rangeList n).permutations'.filter (fun s => !outerHit s)).toFinset,
       ((rangeList n).permutations'.map (fun s => outerCost s)).sum) := by
  unfold brute_force
  rw [brute_force_fold]
  simp

theorem mem_brute_force_fst {n : Nat} {s : List Int} :
    s ∈ (brute_force n).1 ↔ isSolution n s := by
  rw [brute_force_eq]
  simp only [List.mem_toFinset, List.mem_filter, List.mem_permutations', Bool.not_eq_true']
  rw [outerHit_false_iff]
  exact Iff.rfl

theorem brute_force_fst_eq_allSolutions (n : Nat) : (brute_force n).1 = allSolutions n := by
  ext s
  rw [mem_brute_force_fst]
  unfold allSolutions
  simp only [List.mem_toFinset, List.mem_filter, List.mem_permutations',
    decide_eq_true_eq]
  unfold isSolution
  tauto

/-! ### The scan order and the comparison counter -/

theorem firstIdx_map {α β : Type} (q : β → Bool) (f : α → β) :
    ∀ l : List α, firstIdx q (l.map f) = firstIdx (fun a => q (f a)) l := by
  intro l
  induction l with
  | nil => rfl
  | cons a l ih =>
    rw [List.map_cons]
    unfold firstIdx
    rw [ih]

theorem firstIdx_congr {α : Type} {q q' : α → Bool} :
    ∀ l : List α, (∀ a ∈ l, q a = q' a) → firstIdx q l = firstIdx q' l := by
  intro l
  induction l with
  | nil => intro _; rfl
  | cons a l ih =>
    intro h
    unfold firstIdx
    rw [h a (by simp), ih (fun b hb => h b (by simp [hb]))]

theorem firstIdx_nil {α : Type} (q : α → Bool) : firstIdx q [] = none := rfl

theorem firstIdx_cons {α : Type} (q : α → Bool) (a : α) (l : List α) :
    firstIdx q (a :: l) = if q a then some 0 else (firstIdx q l).map (· + 1) := rfl

theorem firstIdx_append {α : Type} (q : α → Bool) :
    ∀ l₁ l₂ : List α, firstIdx q (l₁ ++ l₂) =
      match firstIdx q l₁ with
      | some k => some k
      | none => (firstIdx q l₂).map (· + l₁.length) := by
  intro l₁
  induction l₁ with
  | nil =>
    intro l₂
    simp only [List.nil_append, firstIdx_nil, List.length_nil]
    cases firstIdx q l₂ <;> simp
  | cons a l ih =>
    intro l₂
    rw [List.cons_append, firstIdx_cons, firstIdx_cons]
    by_cases h : q a
    · simp [h]
    · simp only [h, if_false, ih]
      cases hx : firstIdx q l with
      | some k => simp
      | none =>
        cases hy : firstIdx q l₂ with
        | none => simp
        | some k =>
          simp only [hx, hy, Option.map_none', Option.map_some', List.length_cons,
            Bool.false_eq_true, if_false]
          rw [Option.some.injEq]
          omega

theorem innerFirst_eq_firstIdx (elem : Int) :
    ∀ (rest : List Int) (gap : Nat),
      innerFirst elem rest gap =
        firstIdx (fun g => decide ((elem - rest.getD g 0).natAbs = gap + g))
          (List.range rest.length) := by
  intro rest
  induction rest with
  | nil => intro gap; rfl
  | cons x rest' ih =>
    intro gap
    rw [List.length_cons, List.range_succ_eq_map, firstIdx_cons, firstIdx_map]
    by_cases h : (elem - x).natAbs = gap
    · rw [show innerFirst elem (x :: rest') gap = some 0 from by simp [innerFirst, h]]
      rw [if_pos (by simp [List.getD_cons_zero]; omega)]
    · rw [show innerFirst elem (x :: rest') gap
            = (innerFirst elem rest' (gap + 1)).map (· + 1) from by simp [innerFirst, h]]
      rw [if_neg (by simp [List.getD_cons_zero]; omega)]
      rw [ih (gap + 1)]
      have heq : firstIdx (fun a => decide ((elem - (x :: rest').getD (Nat.succ a) 0).natAbs
              = gap + Nat.succ a)) (List.range rest'.length)
           = firstIdx (fun g => decide ((elem - rest'.getD g 0).natAbs = gap + 1 + g))
              (List.range rest'.length) := by
        apply firstIdx_congr
        intro a ha
        rw [List.getD_cons_succ]
        exact decide_eq_decide.mpr (by omega)
      rw [heq]

theorem filter_range_zero_lt (n : Nat) :
    (List.range (n + 1)).filter (fun j => decide (0 < j)) = (List.range n).map Nat.succ := by
  rw [List.range_succ_eq_map, List.filter_cons]
  rw [if_neg (by simp)]
  rw [List.filter_map]
  have : (fun j => decide (0 < j)) ∘ Nat.succ = fun _ => true := by
    funext j
    simp
  rw [this, List.filter_true]

theorem filter_range_succ_lt (n i : Nat) :
    (List.range (n + 1)).filter (fun j => decide (i + 1 < j)) =
      ((List.range n).filter (fun j => decide (i < j))).map Nat.succ := by
  rw [List.range_succ_eq_map, List.filter_cons]
  rw [if_neg (by simp)]
  rw [List.filter_map]
  have : (fun j => decide (i + 1 < j)) ∘ Nat.succ = fun j => decide (i < j) := by
    funext j
    simp only [Function.comp_apply]
    exact decide_eq_decide.mpr (by omega)
  rw [this]

theorem scanOrderPairs_succ (n : Nat) :
    scanOrderPairs (n + 1) =
      ((List.range n).map (fun j => (0, j + 1))) ++
      (scanOrderPairs n).map (fun p => (p.1 + 1, p.2 + 1)) := by
  unfold scanOrderPairs
  nth_rewrite 1 [List.range_succ_eq_map]
  rw [List.flatMap_cons, List.flatMap_map]
  congr 1
  · rw [filter_range_zero_lt, List.map_map]
    rfl
  · rw [List.map_flatMap]
    have hfun : (fun i => ((List.range (n + 1)).filter
          (fun j => decide (Nat.succ i < j))).map (fun j => (Nat.succ i, j)))
        = (fun i => (((List.range n).filter (fun j => decide (i < j))).map
            (fun j => (i, j))).map (fun p => (p.1 + 1, p.2 + 1))) := by
      funext i
      rw [show Nat.succ i = i + 1 from rfl, filter_range_succ_lt, List.map_map, List.map_map]
      rfl
    rw [hfun]

theorem length_scanOrderPairs_succ (n : Nat) :
    (scanOrderPairs (n + 1)).length = n + (scanOrderPairs n).length := by
  rw [scanOrderPairs_succ, List.length_append, List.length_map, List.length_map,
    List.length_range]

theorem outerCost_eq_pairsExamined : ∀ s : List Int, outerCost s = pairsExamined s := by
  intro s
  induction s with
  | nil => rfl
  | cons x rest ih =>
    unfold pairsExamined
    rw [List.length_cons, scanOrderPairs_succ, firstIdx_append]
    have hhead : firstIdx (isDiagConflict (x :: rest))
          ((List.range rest.length).map (fun j => (0, j + 1)))
        = innerFirst x rest 1 := by
      rw [firstIdx_map, innerFirst_eq_firstIdx]
      apply firstIdx_congr
      intro a ha
      unfold isDiagConflict
      rw [List.getD_cons_succ, List.getD_cons_zero]
      exact decide_eq_decide.mpr (by omega)
    have hshift : firstIdx (isDiagConflict (x :: rest))
          ((scanOrderPairs rest.length).map (fun p => (p.1 + 1, p.2 + 1)))
        = firstIdx (isDiagConflict rest) (scanOrderPairs rest.length) := by
      rw [firstIdx_map]
      apply firstIdx_congr
      intro p hp
      unfold isDiagConflict
      rw [List.getD_cons_succ, List.getD_cons_succ]
      exact decide_eq_decide.mpr (by omega)
    rw [hhead, hshift]
    rw [show outerCost (x :: rest)
          = if (innerFirst x rest 1).isSome then innerCost x rest 1
            else innerCost x rest 1 + outerCost rest from rfl]
    cases hif : innerFirst x rest 1 with
    | some k =>
      simp only [hif, Option.isSome_some, if_true, innerCost]
    | none =>
      simp only [hif, Option.isSome_none, Bool.false_eq_true, if_false, innerCost]
      rw [ih]
      unfold pairsExamined
      cases hfi : firstIdx (isDiagConflict rest) (scanOrderPairs rest.length) with
      | some k =>
        simp only [hfi, Option.map_some', List.length_map, List.length_range]
        omega
      | none =>
        simp only [hfi, Option.map_none', List.length_append, List.length_map,
          List.length_range]

theorem brute_force_snd_eq (n : Nat) :
    (brute_force n).2 = ((rangeList n).permutations.map (fun s => pairsExamined s)).sum := by
  rw [brute_force_eq]
  show ((rangeList n).permutations'.map (fun s => outerCost s)).sum = _
  rw [List.map_congr_left (fun s _ => outerCost_eq_pairsExamined s)]
  exact (((List.permutations_perm_permutations' (rangeList n)).map _).sum_eq).symm

/-! ### Characterisation of the backtracking solvers -/

theorem mem_allSolutions {n : Nat} {s : List Int} :
    s ∈ allSolutions n ↔ isSolution n s := by
  unfold allSolutions
  simp only [List.mem_toFinset, List.mem_filter, List.mem_permutations', decide_eq_true_eq]
  unfold isSolution
  tauto

theorem valid_subset_free {p : List Int} {n : Nat} :
    get_valid_moves p n ⊆ intRange n \ p.toFinset := by
  intro m hm
  rw [Finset.mem_sdiff]
  exact ⟨valid_mem_intRange hm, fun hmem => valid_not_mem hm (List.mem_toFinset.mp hmem)⟩

theorem free_card_append {p : List Int} {n : Nat} {m : Int}
    (hm : m ∈ get_valid_moves p n) :
    (intRange n \ (p ++ [m]).toFinset).card + 1 = (intRange n \ p.toFinset).card := by
  have hmem : m ∈ intRange n \ p.toFinset := valid_subset_free hm
  have h1 : (p ++ [m]).toFinset = insert m p.toFinset := by
    rw [List.toFinset_append]
    ext x
    simp [Finset.mem_union, Finset.mem_insert]
    tauto
  rw [h1]
  have h2 : intRange n \ insert m p.toFinset = (intRange n \ p.toFinset).erase m := by
    ext x
    simp only [Finset.mem_sdiff, Finset.mem_erase, Finset.mem_insert, not_or]
    tauto
  rw [h2, Finset.card_erase_of_mem hmem]
  have h3 : 0 < (intRange n \ p.toFinset).card := Finset.card_pos.mpr ⟨m, hmem⟩
  omega

theorem no_completion_of_valid_empty {n : Nat} {p : List Int}
    (hlen : p.length < n) (hvalid : (get_valid_moves p n).card = 0) :
    (allSolutions n).filter (fun s => p <+: s) = ∅ := by
  rw [Finset.filter_eq_empty_iff]
  intro s hs hpre
  have hsol := mem_allSolutions.mp hs
  have htake : s.take p.length = p := (List.prefix_iff_eq_take.mp hpre).symm
  have hmem := solution_getD_mem_valid hsol (r := p.length) hlen
  rw [htake] at hmem
  have := Finset.card_pos.mpr ⟨_, hmem⟩
  omega

theorem completion_last {n : Nat} {p : List Int} (hsafe : SafeState n p)
    (hlen : p.length = n - 1) (hn : 1 ≤ n) {m : Int}
    (hm : get_valid_moves p n = {m}) :
    (allSolutions n).filter (fun s => p <+: s) = {p ++ [m]} := by
  ext s
  rw [Finset.mem_filter, Finset.mem_singleton, mem_allSolutions]
  constructor
  · rintro ⟨hsol, hpre⟩
    have hslen : s.length = n := isSolution_length hsol
    have hpl : p.length < n := by omega
    obtain ⟨t, rfl⟩ := hpre
    have hlt : t.length = 1 := by
      have := List.length_append p t
      omega
    obtain ⟨y, rfl⟩ : ∃ y, t = [y] := by
      cases t with
      | nil => simp at hlt
      | cons a t' =>
        cases t' with
        | nil => exact ⟨a, rfl⟩
        | cons b t'' => simp at hlt
    have hy := solution_getD_mem_valid hsol (r := p.length) hpl
    have htake : (p ++ [y]).take p.length = p := by
      rw [List.take_append_of_le_length (le_refl _), List.take_length]
    have hgetD : (p ++ [y]).getD p.length 0 = y := by
      rw [List.getD_append_right _ _ _ _ (le_refl _), Nat.sub_self, List.getD_cons_zero]
    rw [htake, hgetD, hm, Finset.mem_singleton] at hy
    rw [hy]
  · rintro rfl
    constructor
    · apply safeState_isSolution (safeState_append hsafe (by rw [hm]; exact Finset.mem_singleton_self m))
      rw [List.length_append, List.length_singleton]
      omega
    · exact ⟨[m], rfl⟩

theorem completion_step {n : Nat} {p : List Int} (hlen1 : p.length + 1 ≤ n) :
    ∀ s, (isSolution n s ∧ p <+: s) ↔
      ∃ m ∈ get_valid_moves p n, isSolution n s ∧ (p ++ [m]) <+: s := by
  intro s
  constructor
  · rintro ⟨hsol, hpre⟩
    have hslen : s.length = n := isSolution_length hsol
    have htake := List.prefix_iff_eq_take.mp hpre
    refine ⟨s.getD p.length 0, ?_, hsol, ?_⟩
    · have := solution_getD_mem_valid hsol (r := p.length) (by omega)
      rw [← htake] at this
      exact this
    · rw [List.prefix_iff_eq_take, List.length_append, List.length_singleton,
        List.take_succ, ← htake]
      congr 1
      rw [List.getElem?_eq_getElem (by omega), List.getD_eq_getElem _ _ (by omega)]
      rfl
  · rintro ⟨m, hm, hsol, hpre⟩
    exact ⟨hsol, (List.prefix_append p [m]).trans hpre⟩

theorem foldlM_union_ok {F : Int → Except String (Finset (List Int))}
    {G : Int → Finset (List Int)} :
    ∀ (l : List Int) (acc : Finset (List Int)),
      (∀ m ∈ l, F m = Except.ok (G m)) →
      (l.foldlM (fun output move => do
          let solutions ← F move
          pure (output ∪ solutions.filter (fun sol => 0 < sol.length))) acc)
        = Except.ok (l.foldl (fun output move =>
            output ∪ (G move).filter (fun sol => 0 < sol.length)) acc) := by
  intro l
  induction l with
  | nil => intro acc _; rfl
  | cons m l ih =>
    intro acc h
    rw [List.foldlM_cons, h m (by simp)]
    show (l.foldlM _ (acc ∪ (G m).filter _)) = _
    rw [ih _ (fun x hx => h x (by simp [hx]))]
    rfl

theorem mem_foldl_union {G : Int → Finset (List Int)} :
    ∀ (l : List Int) (acc : Finset (List Int)) (x : List Int),
      x ∈ l.foldl (fun output move =>
          output ∪ (G move).filter (fun sol => 0 < sol.length)) acc
        ↔ x ∈ acc ∨ ∃ m ∈ l, x ∈ (G m).filter (fun sol => 0 < sol.length) := by
  intro l
  induction l with
  | nil => simp
  | cons m l ih =>
    intro acc x
    rw [List.foldl_cons, ih]
    simp only [Finset.mem_union, List.mem_cons]
    constructor
    · rintro ((h | h) | ⟨a, ha, hx⟩)
      · exact Or.inl h
      · exact Or.inr ⟨m, Or.inl rfl, h⟩
      · exact Or.inr ⟨a, Or.inr ha, hx⟩
    · rintro (h | ⟨a, (rfl | ha), hx⟩)
      · exact Or.inl (Or.inl h)
      · exact Or.inl (Or.inr hx)
      · exact Or.inr ⟨a, ha, hx⟩

theorem recursiveAux_char {n : Nat} :
    ∀ (fuel : Nat) (p : List Int),
      (intRange n \ p.toFinset).card ≤ fuel →
      SafeState n p → p.length < n →
      recursiveAux n fuel p = Except.ok ((allSolutions n).filter (fun s => p <+: s)) := by
  intro fuel
  induction fuel with
  | zero =>
    intro p hfuel hsafe hlen
    have hcard : (get_valid_moves p n).card = 0 := by
      have := Finset.card_le_card (valid_subset_free (p := p) (n := n))
      omega
    rw [recursiveAux, if_pos hcard, no_completion_of_valid_empty hlen hcard]
  | succ fuel ih =>
    intro p hfuel hsafe hlen
    by_cases hcard : (get_valid_moves p n).card = 0
    · rw [recursiveAux, if_pos hcard, no_completion_of_valid_empty hlen hcard]
    · by_cases hbase : p.length = n - 1
      · have hle1 := card_get_valid_moves_le_one hsafe.1 hsafe.2.1 hbase (by omega)
        have hcard1 : (get_valid_moves p n).card = 1 := by omega
        obtain ⟨m, hm⟩ := Finset.card_eq_one.mp hcard1
        rw [recursiveAux, if_neg hcard, if_pos hbase, if_pos hcard1, hm, sortedList_singleton,
          completion_last hsafe hbase (by omega) hm]
      · have hlt : p.length + 1 < n := by omega
        have hstep : ∀ m ∈ sortedList (get_valid_moves p n),
            recursiveAux n fuel (p ++ [m]) =
              Except.ok ((allSolutions n).filter (fun s => (p ++ [m]) <+: s)) := by
          intro m hmem
          rw [mem_sortedList] at hmem
          apply ih
          · have := free_card_append hmem
            omega
          · exact safeState_append hsafe hmem
          · rw [List.length_append, List.length_singleton]
            omega
        rw [recursiveAux, if_neg hcard, if_neg hbase]
        rw [foldlM_union_ok _ _ hstep]
        congr 1
        ext x
        rw [mem_foldl_union]
        simp only [Finset.not_mem_empty, false_or]
        constructor
        · rintro ⟨m, hmem, hx⟩
          rw [mem_sortedList] at hmem
          rw [Finset.mem_filter, Finset.mem_filter] at hx
          rw [Finset.mem_filter]
          rw [mem_allSolutions] at hx ⊢
          exact (completion_step (by omega) x).mpr ⟨m, hmem, hx.1.1, hx.1.2⟩
        · intro hx
          rw [Finset.mem_filter, mem_allSolutions] at hx
          obtain ⟨m, hmem, hsol, hpre⟩ := (completion_step (by omega) x).mp hx
          refine ⟨m, mem_sortedList.mpr hmem, ?_⟩
          rw [Finset.mem_filter, Finset.mem_filter, mem_allSolutions]
          refine ⟨⟨hsol, hpre⟩, ?_⟩
          rw [isSolution_length hsol]
          omega

theorem recursive_char {n : Nat} {p : List Int} (hsafe : SafeState n p)
    (hlen : p.length < n) :
    recursive p n = Except.ok ((allSolutions n).filter (fun s => p <+: s)) :=
  recursiveAux_char _ p (le_refl _) hsafe hlen

theorem lex_append_lt {p u v : List Int} {m m' : Int} (h : m < m') :
    List.Lex (· < ·) (p ++ m :: u) (p ++ m' :: v) := by
  induction p with
  | nil => exact List.Lex.rel h
  | cons a p ih => exact List.Lex.cons ih

theorem foldlM_first_some {F : Int → Except String (Option (List Int))} :
    ∀ (l : List Int) (s : List Int),
      l.foldlM (fun solution move =>
        match solution with
        | some r => pure (some r)
        | none => F move) (some s) = Except.ok (some s) := by
  intro l
  induction l with
  | nil => intro s; rfl
  | cons m l ih =>
    intro s
    rw [List.foldlM_cons]
    show l.foldlM _ (some s) = _
    exact ih s

theorem recursiveFastAux_char {n : Nat} :
    ∀ (fuel : Nat) (p : List Int),
      (intRange n \ p.toFinset).card ≤ fuel →
      SafeState n p → p.length < n →
      (recursiveFastAux n fuel p = Except.ok none ∧
        (allSolutions n).filter (fun s => p <+: s) = ∅) ∨
      (∃ s, recursiveFastAux n fuel p = Except.ok (some s) ∧
        s ∈ (allSolutions n).filter (fun t => p <+: t) ∧
        ∀ t ∈ (allSolutions n).filter (fun t => p <+: t),
          s = t ∨ List.Lex (· < ·) s t) := by
  intro fuel
  induction fuel with
  | zero =>
    intro p hfuel hsafe hlen
    have hcard : (get_valid_moves p n).card = 0 := by
      have := Finset.card_le_card (valid_subset_free (p := p) (n := n))
      omega
    left
    rw [recursiveFastAux, if_pos hcard]
    exact ⟨rfl, no_completion_of_valid_empty hlen hcard⟩
  | succ fuel ih =>
    intro p hfuel hsafe hlen
    by_cases hcard : (get_valid_moves p n).card = 0
    · left
      rw [recursiveFastAux, if_pos hcard]
      exact ⟨rfl, no_completion_of_valid_empty hlen hcard⟩
    · by_cases hbase : p.length = n - 1
      · have hle1 := card_get_valid_moves_le_one hsafe.1 hsafe.2.1 hbase (by omega)
        have hcard1 : (get_valid_moves p n).card = 1 := by omega
        obtain ⟨m, hm⟩ := Finset.card_eq_one.mp hcard1
        right
        refine ⟨p ++ [m], ?_, ?_, ?_⟩
        · rw [recursiveFastAux, if_neg hcard, if_pos hbase, if_pos hcard1, hm,
            sortedList_singleton]
        · rw [completion_last hsafe hbase (by omega) hm]
          exact Finset.mem_singleton_self _
        · intro t ht
          rw [completion_last hsafe hbase (by omega) hm, Finset.mem_singleton] at ht
          exact Or.inl ht.symm
      · have hlt : p.length + 1 < n := by omega
        -- conditions available for every valid move
        have hchild : ∀ m ∈ get_valid_moves p n,
            (recursiveFastAux n fuel (p ++ [m]) = Except.ok none ∧
              (allSolutions n).filter (fun s => (p ++ [m]) <+: s) = ∅) ∨
            (∃ s, recursiveFastAux n fuel (p ++ [m]) = Except.ok (some s) ∧
              s ∈ (allSolutions n).filter (fun t => (p ++ [m]) <+: t) ∧
              ∀ t ∈ (allSolutions n).filter (fun t => (p ++ [m]) <+: t),
                s = t ∨ List.Lex (· < ·) s t) := by
          intro m hmem
          apply ih
          · have := free_card_append hmem
            omega
          · exact safeState_append hsafe hmem
          · rw [List.length_append, List.length_singleton]
            omega
        -- the inner fold over a pairwise-increasing list of valid moves
        have hinner : ∀ l : List Int, l.Pairwise (· < ·) →
            (∀ m ∈ l, m ∈ get_valid_moves p n) →
            (l.foldlM (fun solution move =>
                match solution with
                | some s => pure (some s)
                | none => recursiveFastAux n fuel (p ++ [move])) none = Except.ok none ∧
              ∀ m ∈ l, (allSolutions n).filter (fun s => (p ++ [m]) <+: s) = ∅) ∨
            (∃ m ∈ l, ∃ s,
              l.foldlM (fun solution move =>
                match solution with
                | some s => pure (some s)
                | none => recursiveFastAux n fuel (p ++ [move])) none = Except.ok (some s) ∧
              s ∈ (allSolutions n).filter (fun t => (p ++ [m]) <+: t) ∧
              (∀ t ∈ (allSolutions n).filter (fun t => (p ++ [m]) <+: t),
                s = t ∨ List.Lex (· < ·) s t) ∧
              ∀ m' ∈ l, m' < m →
                (allSolutions n).filter (fun s => (p ++ [m']) <+: s) = ∅) := by
          intro l
          induction l with
          | nil =>
            intro _ _
            left
            exact ⟨rfl, by simp⟩
          | cons m l ihl =>
            intro hpw hmem
            have hm := hmem m (by simp)
            rcases hchild m hm with ⟨hnone, hempty⟩ | ⟨s, hsome, hsmem, hsmin⟩
            · -- the head subtree is empty: the fold moves on to the tail
              have hfold : (m :: l).foldlM (fun solution move =>
                  match solution with
                  | some s => pure (some s)
                  | none => recursiveFastAux n fuel (p ++ [move])) none
                  = l.foldlM (fun solution move =>
                      match solution with
                      | some s => pure (some s)
                      | none => recursiveFastAux n fuel (p ++ [move])) none := by
                rw [List.foldlM_cons]
                show (recursiveFastAux n fuel (p ++ [m]) >>= _) = _
                rw [hnone]
                rfl
              rcases ihl (List.Pairwise.sublist (List.sublist_cons_self m l) hpw)
                  (fun x hx => hmem x (by simp [hx])) with
                ⟨htail, hallempty⟩ | ⟨m₀, hm₀, s, hfolds, hsmem, hsmin, hbefore⟩
              · left
                refine ⟨by rw [hfold]; exact htail, ?_⟩
                intro x hx
                rcases List.mem_cons.mp hx with rfl | hx'
                · exact hempty
                · exact hallempty x hx'
              · right
                refine ⟨m₀, by simp [hm₀], s, by rw [hfold]; exact hfolds, hsmem, hsmin, ?_⟩
                intro m' hm' hlt'
                rcases List.mem_cons.mp hm' with rfl | hm''
                · exact hempty
                · exact hbefore m' hm'' hlt'
            · -- the head subtree yields the first solution
              right
              refine ⟨m, by simp, s, ?_, hsmem, hsmin, ?_⟩
              · rw [List.foldlM_cons]
                show (recursiveFastAux n fuel (p ++ [m]) >>= _) = _
                rw [hsome]
                show l.foldlM _ (some s) = _
                exact foldlM_first_some l s
              · intro m' hm' hlt'
                rcases List.mem_cons.mp hm' with rfl | hm''
                · exact absurd hlt' (lt_irrefl m')
                · have := (List.pairwise_cons.mp hpw).1 m' hm''
                  exact absurd hlt' (by omega)
        have hsorted := sorted_lt_sortedList (get_valid_moves p n)
        rcases hinner (sortedList (get_valid_moves p n)) hsorted
            (fun m hm => mem_sortedList.mp hm) with
          ⟨hfold, hallempty⟩ | ⟨m, hm, s, hfold, hsmem, hsmin, hbefore⟩
        · left
          constructor
          · rw [recursiveFastAux, if_neg hcard, if_neg hbase]
            exact hfold
          · rw [Finset.filter_eq_empty_iff]
            intro x hx hpre
            have hsol := mem_allSolutions.mp hx
            obtain ⟨m, hmv, _, hpre'⟩ := (completion_step (by omega) x).mp ⟨hsol, hpre⟩
            have := hallempty m (mem_sortedList.mpr hmv)
            rw [Finset.filter_eq_empty_iff] at this
            exact this hx hpre'
        · right
          refine ⟨s, ?_, ?_, ?_⟩
          · rw [recursiveFastAux, if_neg hcard, if_neg hbase]
            exact hfold
          · rw [Finset.mem_filter] at hsmem ⊢
            exact ⟨hsmem.1, (List.prefix_append p [m]).trans hsmem.2⟩
          · intro t ht
            rw [Finset.mem_filter] at ht
            obtain ⟨m', hm'v, _, hpre'⟩ :=
              (completion_step (by omega) t).mp ⟨mem_allSolutions.mp ht.1, ht.2⟩
            rcases lt_trichotomy m' m with hlt' | heq | hgt
            · have := hbefore m' (mem_sortedList.mpr hm'v) hlt'
              rw [Finset.filter_eq_empty_iff] at this
              exact absurd hpre' (this ht.1)
            · subst heq
              exact hsmin t (by rw [Finset.mem_filter]; exact ⟨ht.1, hpre'⟩)
            · right
              rw [Finset.mem_filter] at hsmem
              obtain ⟨u, hu⟩ := hsmem.2
              obtain ⟨v, hv⟩ := hpre'
              rw [← hu, ← hv]
              rw [List.append_assoc, List.append_assoc]
              exact lex_append_lt hgt
        
theorem recursive_fast_char {n : Nat} {p : List Int} (hsafe : SafeState n p)
    (hlen : p.length < n) :
    (recursive_fast p n = Except.ok none ∧
      (allSolutions n).filter (fun s => p <+: s) = ∅) ∨
    (∃ s, recursive_fast p n = Except.ok (some s) ∧
      s ∈ (allSolutions n).filter (fun t => p <+: t) ∧
      ∀ t ∈ (allSolutions n).filter (fun t => p <+: t),
        s = t ∨ List.Lex (· < ·) s t) :=
  recursiveFastAux_char _ p (le_refl _) hsafe hlen

/-! ### The wrappers satisfy the recursion of the source -/

theorem foldlM_congr_mem {α σ : Type}
    {step₁ step₂ : σ → α → Except String σ} :
    ∀ (l : List α) (init : σ),
      (∀ acc a, a ∈ l → step₁ acc a = step₂ acc a) →
      l.foldlM step₁ init = l.foldlM step₂ init := by
  intro l
  induction l with
  | nil => intro init _; rfl
  | cons a l ih =>
    intro init h
    rw [List.foldlM_cons, List.foldlM_cons, h init a (by simp)]
    cases step₂ init a with
    | error e => rfl
    | ok acc => exact ih acc (fun acc' x hx => h acc' x (by simp [hx]))

theorem recursive_unfold (p : List Int) (n : Nat) :
    recursive p n =
      if (get_valid_moves p n).card = 0 then Except.ok ∅
      else if p.length = n - 1 then
        if (get_valid_moves p n).card = 1 then
          Except.ok {p ++ sortedList (get_valid_moves p n)}
        else Except.error "There is more than one valid solution for the final row."
      else
        (sortedList (get_valid_moves p n)).foldlM
          (fun output move => do
            let solutions ← recursive (p ++ [move]) n
            pure (output ∪ solutions.filter (fun sol => 0 < sol.length)))
          ∅ := by
  unfold recursive
  cases hm : (intRange n \ p.toFinset).card with
  | zero =>
    have hcard : (get_valid_moves p n).card = 0 := by
      have := Finset.card_le_card (valid_subset_free (p := p) (n := n))
      omega
    rw [recursiveAux, if_pos hcard, if_pos hcard]
  | succ k =>
    rw [recursiveAux]
    by_cases h0 : (get_valid_moves p n).card = 0
    · rw [if_pos h0, if_pos h0]
    · rw [if_neg h0, if_neg h0]
      by_cases hbase : p.length = n - 1
      · rw [if_pos hbase, if_pos hbase]
      · rw [if_neg hbase, if_neg hbase]
        apply foldlM_congr_mem
        intro acc m hmem
        rw [mem_sortedList] at hmem
        have : (intRange n \ (p ++ [m]).toFinset).card = k := by
          have := free_card_append hmem
          omega
        rw [this]

theorem recursive_fast_unfold (p : List Int) (n : Nat) :
    recursive_fast p n =
      if (get_valid_moves p n).card = 0 then Except.ok none
      else if p.length = n - 1 then
        if (get_valid_moves p n).card = 1 then
          Except.ok (some (p ++ sortedList (get_valid_moves p n)))
        else Except.error "There is more than one valid solution for the final row."
      else
        (sortedList (get_valid_moves p n)).foldlM
          (fun solution move =>
            match solution with
            | some s => pure (some s)
            | none => recursive_fast (p ++ [move]) n)
          none := by
  unfold recursive_fast
  cases hm : (intRange n \ p.toFinset).card with
  | zero =>
    have hcard : (get_valid_moves p n).card = 0 := by
      have := Finset.card_le_card (valid_subset_free (p := p) (n := n))
      omega
    rw [recursiveFastAux, if_pos hcard, if_pos hcard]
  | succ k =>
    rw [recursiveFastAux]
    by_cases h0 : (get_valid_moves p n).card = 0
    · rw [if_pos h0, if_pos h0]
    · rw [if_neg h0, if_neg h0]
      by_cases hbase : p.length = n - 1
      · rw [if_pos hbase, if_pos hbase]
      · rw [if_neg hbase, if_neg hbase]
        apply foldlM_congr_mem
        intro acc m hmem
        rw [mem_sortedList] at hmem
        cases acc with
        | some r => rfl
        | none =>
          have : (intRange n \ (p ++ [m]).toFinset).card = k := by
            have := free_card_append hmem
            omega
          rw [this]

/-! ### Consequences at the empty initial state -/

theorem safeState_nil (n : Nat) : SafeState n [] :=
  reachable_safeState Reachable.init

theorem filter_prefix_of_nil (n : Nat) :
    (allSolutions n).filter (fun s => ([] : List Int) <+: s) = allSolutions n :=
  Finset.filter_true_of_mem (fun _ _ => List.nil_prefix)

theorem recursive_nil_eq {n : Nat} (hn : 1 ≤ n) :
    recursive [] n = Except.ok (brute_force n).1 := by
  rw [recursive_char (safeState_nil n) (show ([] : List Int).length < n by simpa using hn),
    filter_prefix_of_nil, brute_force_fst_eq_allSolutions]

theorem recursive_fast_nil_char {n : Nat} (hn : 1 ≤ n) :
    (recursive_fast [] n = Except.ok none ∧ (brute_force n).1 = ∅) ∨
    (∃ s, recursive_fast [] n = Except.ok (some s) ∧ s ∈ (brute_force n).1 ∧
      ∀ t ∈ (brute_force n).1, s = t ∨ List.Lex (· < ·) s t) := by
  have h := recursive_fast_char (safeState_nil n)
    (show ([] : List Int).length < n by simpa using hn)
  rw [filter_prefix_of_nil, ← brute_force_fst_eq_allSolutions] at h
  exact h

/-! ### The oracle validator -/

theorem test_fold_inner {n : Nat} {s : List Int} (hs : isSolution n s) :
    ∀ l : List Nat, (∀ r ∈ l, r < n) → ∀ failed : Finset (List Int × Int),
      (l.foldlM (fun (failed : Finset (List Int × Int)) row =>
        let move := s.getD row 0
        let valid_moves := get_valid_moves (s.take row) n
        if move ∉ valid_moves then
          Except.error "TypeError: add() takes exactly one argument (2 given)"
        else Except.ok failed) failed) = Except.ok failed := by
  intro l
  induction l with
  | nil => intro _ failed; rfl
  | cons r l ih =>
    intro hl failed
    rw [List.foldlM_cons]
    have hmem := solution_getD_mem_valid hs (hl r (by simp))
    show ((if s.getD r 0 ∉ get_valid_moves (s.take r) n then
        Except.error "TypeError: add() takes exactly one argument (2 given)"
      else Except.ok failed) >>= _) = _
    rw [if_neg (not_not.mpr hmem)]
    show l.foldlM _ failed = _
    exact ih (fun x hx => hl x (by simp [hx])) failed

theorem test_fold_outer {n : Nat} :
    ∀ ls : List (List Int), (∀ s ∈ ls, isSolution n s) →
      ∀ acc : Finset (List Int × Int),
      (ls.foldlM (fun (failed : Finset (List Int × Int)) solution =>
        (List.range solution.length).foldlM
          (fun (failed : Finset (List Int × Int)) row =>
            let move := solution.getD row 0
            let valid_moves := get_valid_moves (solution.take row) n
            if move ∉ valid_moves then
              Except.error "TypeError: add() takes exactly one argument (2 given)"
            else Except.ok failed)
          failed) acc) = Except.ok acc := by
  intro ls
  induction ls with
  | nil => intro _ acc; rfl
  | cons s ls ih =>
    intro hls acc
    rw [List.foldlM_cons]
    have hsol := hls s (by simp)
    rw [test_fold_inner hsol (List.range s.length)
      (fun r hr => by
        rw [List.mem_range] at hr
        rw [isSolution_length hsol] at hr
        exact hr) acc]
    show ls.foldlM _ acc = _
    exact ih (fun x hx => hls x (by simp [hx])) acc

theorem test_get_valid_moves_eq (n : Nat) :
    test_get_valid_moves n = Except.ok "<<< Test passed! >>>" := by
  have h := test_fold_outer (sortedList (brute_force n).1)
    (fun s hs => mem_brute_force_fst.mp (mem_sortedList.mp hs)) (∅ : Finset (List Int × Int))
  unfold test_get_valid_moves
  show ((sortedList (brute_force n).1).foldlM _ ∅ >>=
      fun (failed : Finset (List Int × Int)) =>
    if 0 < failed.card then Except.ok "<<< FAILED >>>"
    else Except.ok "<<< Test passed! >>>") = _
  rw [h]
  rfl

/-! ### The claims -/

/-- C1: for every board size n ≥ 1, the exhaustive backtracking solver
called on the empty placement returns exactly the solution set of the
permutation solver `brute_force`; in particular for n = 4 it returns
exactly the two placements (1,3,0,2) and (2,0,3,1). -/
theorem C1_recursive_matches_brute_force :
    (∀ n : Nat, 1 ≤ n → recursive [] n = Except.ok (brute_force n).1) ∧
    recursive [] 4 = Except.ok ({[1, 3, 0, 2], [2, 0, 3, 1]} : Finset (List Int)) := by
  refine ⟨fun n hn => recursive_nil_eq hn, ?_⟩
  rw [recursive_nil_eq (by omega : 1 ≤ 4),
    show (brute_force 4).1 = ({[1, 3, 0, 2], [2, 0, 3, 1]} : Finset (List Int)) from by decide]

/-- Witness for C1 at board size 4. -/
theorem C1_witness :
    1 ≤ 4 ∧ recursive [] 4 = Except.ok (brute_force 4).1 :=
  ⟨by decide, C1_recursive_matches_brute_force.1 4 (by decide)⟩

/-- C2: for every n ≥ 1, every solution of `brute_force` and every index
r < n, the row `S[r]` is accepted by the oracle on the prefix `S[:r]`. -/
theorem C2_oracle_accepts_solution_steps :
    ∀ n : Nat, 1 ≤ n → ∀ s ∈ (brute_force n).1, ∀ r : Nat, r < n →
      s.getD r 0 ∈ get_valid_moves (s.take r) n :=
  fun _ _ _ hs _ hr => solution_getD_mem_valid (mem_brute_force_fst.mp hs) hr

/-- Witness for C2: solution (1,3,0,2) of the 4-board at index 2. -/
theorem C2_witness :
    1 ≤ 4 ∧ ([1, 3, 0, 2] : List Int) ∈ (brute_force 4).1 ∧ 2 < 4 ∧
      ([1, 3, 0, 2] : List Int).getD 2 0 ∈
        get_valid_moves (([1, 3, 0, 2] : List Int).take 2) 4 :=
  ⟨by decide, by decide, by decide,
    C2_oracle_accepts_solution_steps 4 (by decide) [1, 3, 0, 2] (by decide) 2 (by decide)⟩

/-- C3: for every n ≥ 1, every placement returned by `recursive([], n)` has
length n, pairwise distinct rows inside [0, n), and diagonal safety for
every index pair. -/
theorem C3_recursive_solutions_valid :
    ∀ n : Nat, 1 ≤ n → ∀ S : Finset (List Int), recursive [] n = Except.ok S →
      ∀ s ∈ S, s.length = n ∧ s.Nodup ∧ (∀ m ∈ s, 0 ≤ m ∧ m < (n : Int)) ∧
        ∀ i j : Nat, i < j → j < n →
          (s.getD i 0 - s.getD j 0).natAbs ≠ j - i := by
  intro n hn S hS s hs
  rw [recursive_nil_eq hn] at hS
  have hS' : S = (brute_force n).1 := (Except.ok.inj hS).symm
  subst hS'
  have hsol := mem_brute_force_fst.mp hs
  have hlen := isSolution_length hsol
  refine ⟨hlen, isSolution_nodup hsol, ?_, ?_⟩
  · intro m hm
    exact mem_intRange.mp (isSolution_mem_intRange hsol m hm)
  · intro i j hij hj
    exact hsol.2 i (by omega) j (by omega) hij

/-- Witness for C3 at board size 1. -/
theorem C3_witness :
    1 ≤ 1 ∧ recursive [] 1 = Except.ok ({[0]} : Finset (List Int)) ∧
      ([0] : List Int) ∈ ({[0]} : Finset (List Int)) ∧
      (([0] : List Int).length = 1 ∧ ([0] : List Int).Nodup ∧
        (∀ m ∈ ([0] : List Int), 0 ≤ m ∧ m < (1 : Int)) ∧
        ∀ i j : Nat, i < j → j < 1 →
          (([0] : List Int).getD i 0 - ([0] : List Int).getD j 0).natAbs ≠ j - i) :=
  ⟨by decide, rfl, by decide,
    C3_recursive_solutions_valid 1 (by decide) {[0]} rfl [0] (by decide)⟩

/-- C4: the oracle returns exactly the rows of the board that avoid, for
every placed queen idx with row move, the three rows move,
move + (k - idx) and move - (k - idx), where k is the number of placed
queens; on the empty placement it returns all rows of the board. -/
theorem C4_valid_moves_formula :
    (∀ (n : Nat) (p : List Int), 1 ≤ n → p.length < n → ∀ m : Int,
      m ∈ get_valid_moves p n ↔
        ((0 ≤ m ∧ m < (n : Int)) ∧
          ∀ idx : Nat, idx < p.length →
            m ≠ p.getD idx 0 ∧ m ≠ p.getD idx 0 + ((p.length : Int) - (idx : Int)) ∧
            m ≠ p.getD idx 0 - ((p.length : Int) - (idx : Int)))) ∧
    (∀ n : Nat, 1 ≤ n → get_valid_moves [] n = intRange n) := by
  refine ⟨fun n p _ _ m => mem_get_valid_moves, fun n _ => ?_⟩
  unfold get_valid_moves
  rw [show invalid_moves [] = (∅ : Finset Int) from rfl, Finset.sdiff_empty]

/-- Witness for C4: the state (0) on the 4-board and the row 2. -/
theorem C4_witness :
    (1 ≤ 4 ∧ ([0] : List Int).length < 4 ∧
      ((2 : Int) ∈ get_valid_moves [0] 4 ↔
        ((0 ≤ (2 : Int) ∧ (2 : Int) < (4 : Int)) ∧
          ∀ idx : Nat, idx < ([0] : List Int).length →
            (2 : Int) ≠ ([0] : List Int).getD idx 0 ∧
            (2 : Int) ≠ ([0] : List Int).getD idx 0 +
              ((([0] : List Int).length : Int) - (idx : Int)) ∧
            (2 : Int) ≠ ([0] : List Int).getD idx 0 -
              ((([0] : List Int).length : Int) - (idx : Int))))) ∧
    get_valid_moves [] 4 = intRange 4 :=
  ⟨⟨by decide, by decide, C4_valid_moves_formula.1 4 [0] (by decide) (by decide) 2⟩,
    C4_valid_moves_formula.2 4 (by decide)⟩

/-- C5: for every n ≥ 1, in every state reached from the empty placement
whose length is n - 1 and whose valid-move set is non-empty, that set has
exactly one element; consequently both recursive solvers started from the
empty placement return a value and the final-row assertion never fires. -/
theorem C5_last_column_assert :
    ∀ n : Nat, 1 ≤ n →
      (∀ p : List Int, Reachable n p → p.length = n - 1 →
        (get_valid_moves p n).Nonempty → (get_valid_moves p n).card = 1) ∧
      (∃ S, recursive [] n = Except.ok S) ∧
      (∃ r, recursive_fast [] n = Except.ok r) := by
  intro n hn
  refine ⟨?_, ?_, ?_⟩
  · intro p hreach hlen hne
    have hsafe := reachable_safeState hreach
    have hle := card_get_valid_moves_le_one hsafe.1 hsafe.2.1 hlen hn
    have := Finset.card_pos.mpr hne
    omega
  · exact ⟨_, recursive_nil_eq hn⟩
  · rcases recursive_fast_nil_char hn with ⟨h, _⟩ | ⟨s, h, _, _⟩
    · exact ⟨none, h⟩
    · exact ⟨some s, h⟩

/-- Witness for C5: the reachable state (1,3,0) on the 4-board. -/
theorem C5_witness :
    1 ≤ 4 ∧ Reachable 4 [1, 3, 0] ∧ ([1, 3, 0] : List Int).length = 4 - 1 ∧
      (get_valid_moves [1, 3, 0] 4).Nonempty ∧ (get_valid_moves [1, 3, 0] 4).card = 1 := by
  have h1 : Reachable 4 ([] ++ [1]) := Reachable.step Reachable.init (by decide) (by decide)
  have h2 : Reachable 4 ([1] ++ [3]) := Reachable.step h1 (by decide) (by decide)
  have h3 : Reachable 4 ([1, 3] ++ [0]) := Reachable.step h2 (by decide) (by decide)
  exact ⟨by decide, h3, by decide, by decide,
    (C5_last_column_assert 4 (by decide)).1 [1, 3, 0] h3 (by decide) (by decide)⟩

/-- C6: for every n ≥ 1, `recursive_fast([], n)` returns no solution
exactly when `recursive([], n)` returns the empty set, which happens
exactly when `brute_force(n)` has no solutions, and any solution it does
return belongs to the set returned by `recursive([], n)`. -/
theorem C6_first_solution_consistency :
    ∀ n : Nat, 1 ≤ n →
      ((recursive_fast [] n = Except.ok none) ↔
        recursive [] n = Except.ok (∅ : Finset (List Int))) ∧
      ((recursive_fast [] n = Except.ok none) ↔ (brute_force n).1 = ∅) ∧
      (∀ s, recursive_fast [] n = Except.ok (some s) →
        ∃ S, recursive [] n = Except.ok S ∧ s ∈ S) := by
  intro n hn
  have hrec := recursive_nil_eq hn
  rcases recursive_fast_nil_char hn with ⟨hfast, hempty⟩ | ⟨s, hfast, hmem, hmin⟩
  · refine ⟨⟨fun _ => by rw [hrec, hempty], fun _ => hfast⟩,
      ⟨fun _ => hempty, fun _ => hfast⟩, ?_⟩
    intro t ht
    rw [hfast] at ht
    exact absurd (Except.ok.inj ht) (by simp)
  · have hne : (brute_force n).1 ≠ ∅ := by
      intro h
      rw [h] at hmem
      exact absurd hmem (Finset.not_mem_empty s)
    refine ⟨⟨?_, ?_⟩, ⟨?_, ?_⟩, ?_⟩
    · intro h
      rw [hfast] at h
      exact absurd (Except.ok.inj h) (by simp)
    · intro h
      rw [hrec] at h
      exact absurd (Except.ok.inj h) hne
    · intro h
      rw [hfast] at h
      exact absurd (Except.ok.inj h) (by simp)
    · intro h
      exact absurd h hne
    · intro t ht
      rw [hfast] at ht
      have hts : t = s := (Option.some.inj (Except.ok.inj ht)).symm
      subst hts
      exact ⟨(brute_force n).1, hrec, hmem⟩

/-- Witness for C6 at board size 2 (no solutions). -/
theorem C6_witness :
    1 ≤ 2 ∧ recursive_fast [] 2 = Except.ok none ∧
      recursive [] 2 = Except.ok (∅ : Finset (List Int)) :=
  ⟨by decide, rfl, ((C6_first_solution_consistency 2 (by decide)).1).mp rfl⟩

/-- C7: `recursive_fast` tries the candidate rows in ascending order, so
when a solution exists it returns the lexicographically smallest one; in
particular on the 8-board it returns (0,4,7,5,2,6,1,3). -/
theorem C7_first_solution_lex_min :
    (∀ n : Nat, 1 ≤ n → (brute_force n).1.Nonempty →
      ∃ s, recursive_fast [] n = Except.ok (some s) ∧ s ∈ (brute_force n).1 ∧
        ∀ t ∈ (brute_force n).1, s = t ∨ List.Lex (· < ·) s t) ∧
    recursive_fast [] 8 = Except.ok (some [0, 4, 7, 5, 2, 6, 1, 3]) := by
  constructor
  · intro n hn hne
    rcases recursive_fast_nil_char hn with ⟨_, hempty⟩ | ⟨s, hfast, hmem, hmin⟩
    · rw [hempty] at hne
      exact absurd hne (by simp)
    · exact ⟨s, hfast, hmem, hmin⟩
  · rfl

/-- Witness for C7 at board size 4. -/
theorem C7_witness :
    1 ≤ 4 ∧ (brute_force 4).1.Nonempty ∧
      (∃ s, recursive_fast [] 4 = Except.ok (some s) ∧ s ∈ (brute_force 4).1 ∧
        ∀ t ∈ (brute_force 4).1, s = t ∨ List.Lex (· < ·) s t) :=
  ⟨by decide, by decide, C7_first_solution_lex_min.1 4 (by decide) (by decide)⟩

/-- C8: for every n ≥ 0, the counter returned by `brute_force(n)` is the
total number of index pairs examined over all permutations of range(n),
scanning pairs in lexicographic order and stopping each permutation right
after its first diagonal conflict, which is itself counted. -/
theorem C8_brute_force_counter :
    ∀ n : Nat, (brute_force n).2 =
      ((rangeList n).permutations.map (fun s => pairsExamined s)).sum :=
  brute_force_snd_eq

/-- C9: for every n ≥ 1 the oracle self-test runs to completion and, since
no brute-force solution ever has a move the oracle rejects, the failure
branch (whose two-argument `set.add` call would raise a TypeError) is
never taken and the test reports a pass. -/
theorem C9_test_runs_and_passes :
    ∀ n : Nat, 1 ≤ n →
      test_get_valid_moves n = Except.ok "<<< Test passed! >>>" ∧
      ∀ s ∈ (brute_force n).1, ∀ r : Nat, r < n →
        s.getD r 0 ∈ get_valid_moves (s.take r) n :=
  fun n _ => ⟨test_get_valid_moves_eq n,
    fun _ hs _ hr => solution_getD_mem_valid (mem_brute_force_fst.mp hs) hr⟩

/-- Witness for C9 at board size 4. -/
theorem C9_witness :
    1 ≤ 4 ∧ test_get_valid_moves 4 = Except.ok "<<< Test passed! >>>" :=
  ⟨by decide, (C9_test_runs_and_passes 4 (by decide)).1⟩

/-- C10: at board size 0 the three solvers disagree: `brute_force` returns
the one-element set holding the empty placement with counter 0, while
`recursive` returns the empty set and `recursive_fast` returns no
solution. -/
theorem C10_size_zero_disagreement :
    brute_force 0 = ({([] : List Int)}, 0) ∧
    recursive [] 0 = Except.ok (∅ : Finset (List Int)) ∧
    recursive_fast [] 0 = Except.ok none ∧
    (brute_force 0).1.Nonempty :=
  ⟨rfl, rfl, rfl, by decide⟩
